import Mathlib

/-!
Verification of the X.509 certificate/extension core of the `openssl` crate
(`src/openssl/src/x509/mod.rs`): the ordered type-unique extension
collection, random serial generation, the self-sign and CSR workflows,
verify-error wrapping, subject-alternative-name access, and DER input
length capping.  Native (FFI) calls are embedded as explicit fallible
environments; machine integers are modelled as `Nat`/`Int` with explicit
wrapping where the code relies on it.
-/

namespace RustOpenssl

/-- Modelled from the spec: `ExtensionType` lives in the `extension`
submodule (not part of the sources at hand); it is "a tagged identifier —
either a well-known numeric kind or an opaque textual name — used as the
uniqueness key for extensions". -/
inductive ExtensionType where
  | nid : Nat → ExtensionType
  | name : String → ExtensionType
deriving DecidableEq, Repr

/-- Modelled from the spec: `Extension` lives in the `extension` submodule;
it is a "tagged variant carrying kind-specific data" that "serializes to a
textual value".  All the code at hand uses of it are `get_type()` (the
uniqueness key) and `to_string()` (the textual value), so we carry exactly
those two observations. -/
structure Extension where
  extType : ExtensionType
  value : String
deriving DecidableEq, Repr

/-- `Extension::get_type` — the `ExtensionType` keying this extension. -/
def Extension.get_type (e : Extension) : ExtensionType := e.extType

/-- The `HashMap<ExtensionType, usize>` of `Extensions.indexes`, embedded as
an association list with the map discipline (at most one binding per key,
enforced by `hmInsert`). -/
def HM := List (ExtensionType × Nat)

/-- `HashMap::get`: the value bound to `k`, if any. -/
def hmGet (m : List (ExtensionType × Nat)) (k : ExtensionType) : Option Nat :=
  match m with
  | [] => none
  | (k2, v) :: rest => if k2 = k then some v else hmGet rest k

/-- `HashMap::insert`: bind `k` to `v`, replacing any existing binding. -/
def hmInsert (m : List (ExtensionType × Nat)) (k : ExtensionType) (v : Nat) :
    List (ExtensionType × Nat) :=
  match m with
  | [] => [(k, v)]
  | (k2, v2) :: rest => if k2 = k then (k, v) :: rest else (k2, v2) :: hmInsert rest k v

/-- `struct Extensions`: the collection of X.509 extensions, an ordered
vector plus a type-to-position index. -/
structure Extensions where
  extensions : List Extension
  indexes : List (ExtensionType × Nat)
deriving DecidableEq, Repr

/-- `Extensions::new`. -/
def Extensions.new : Extensions :=
  { extensions := [], indexes := [] }

/-- `Extensions::add`: insert a new `Extension`, replacing any existing one
of the same `ExtensionType` in place. -/
def Extensions.add (s : Extensions) (ext : Extension) : Extensions :=
  let ext_type := ext.get_type
  match hmGet s.indexes ext_type with
  | some index => { s with extensions := s.extensions.set index ext }
  | none =>
    { extensions := s.extensions ++ [ext]
      indexes := hmInsert s.indexes ext_type s.extensions.length }

/-- `struct ExtensionsIter`: iterator state over the collection. -/
structure ExtensionsIter where
  current : Nat
  extensions : List Extension

/-- `Extensions::iter`. -/
def Extensions.iter (s : Extensions) : ExtensionsIter :=
  { current := 0, extensions := s.extensions }

/-- `ExtensionsIter::next`: yields `(ext.get_type(), ext)` at the cursor and
advances it, or `None` past the end. -/
def ExtensionsIter.next (it : ExtensionsIter) :
    Option ((ExtensionType × Extension) × ExtensionsIter) :=
  if h : it.current < it.extensions.length then
    let ext := it.extensions.get ⟨it.current, h⟩
    some ((ext.get_type, ext), { it with current := it.current + 1 })
  else
    none

/-- The (finite) sequence of items produced by exhausting an
`ExtensionsIter` by repeated `next` calls. -/
def ExtensionsIter.toList (it : ExtensionsIter) : List (ExtensionType × Extension) :=
  match h : it.next with
  | some (x, it2) => x :: it2.toList
  | none => []
termination_by it.extensions.length - it.current
decreasing_by
  simp only [ExtensionsIter.next] at h
  split at h
  · simp only [Option.some.injEq] at h
    cases h
    simp
    omega
  · exact absurd h (by simp)

/-- The items yielded by `Extensions::iter` run to completion. -/
def Extensions.iterList (s : Extensions) : List (ExtensionType × Extension) :=
  s.iter.toList

/-- The result of running a sequence of `add` calls from `Extensions::new`. -/
def buildExtensions (adds : List Extension) : Extensions :=
  adds.foldl Extensions.add Extensions.new

/-- Sample extension used to exercise the collection on concrete data. -/
def extKeyUsage : Extension :=
  { extType := ExtensionType.nid 15, value := "digitalSignature" }

/-- Sample extension of a second, distinct type. -/
def extAltName : Extension :=
  { extType := ExtensionType.name "subjectAltName", value := "DNS:example.com" }

/-- Sample extension sharing its type with `extKeyUsage`. -/
def extKeyUsage2 : Extension :=
  { extType := ExtensionType.nid 15, value := "keyEncipherment" }

/-- `mem::size_of::<c_long>()` on the modelled LP64 platform: 8 bytes, so
the native serial width is 64 bits. -/
def c_long_bytes : Nat := 8

/-- The big-endian accumulation loop of `X509Generator::random_serial`:
`res = res << 8; res |= (*b as c_long) & 0xff` on a 64-bit `c_long`,
tracked on its unsigned 64-bit representation (the left shift drops the
bits pushed past the word modulo `2 ^ 64`, and the bitwise or merges the
fresh low byte into the now-clear low bits, which is an addition). -/
def serialAssemble (bytes : List Nat) : Nat :=
  bytes.foldl (fun res b => res * 256 % 2 ^ 64 + b % 256) 0

/-- Reinterpret an unsigned 64-bit value as a signed 64-bit `c_long`
(two's complement). -/
def toSigned64 (u : Nat) : Int :=
  if u < 2 ^ 63 then (u : Int) else (u : Int) - 2 ^ 64

/-- `X509Generator::random_serial`, applied to the byte sequence the
random-byte provider (`rand_bytes`) filled in: big-endian assembly
followed by `((res as c_ulong) >> 1) as c_long`, the unsigned right shift
by one bit. -/
def X509Generator.random_serial (bytes : List Nat) : Int :=
  toSigned64 (serialAssemble bytes / 2)

/-- `X509_V_OK`, the reserved native sentinel for a successful
verification (value 0 in OpenSSL). -/
def X509_V_OK : Int := 0

/-- `struct X509VerifyError(c_long)`. -/
structure X509VerifyError where
  code : Int
deriving DecidableEq, Repr

/-- `X509VerifyError::from_raw`. -/
def X509VerifyError.from_raw (err : Int) : Option X509VerifyError :=
  if err = X509_V_OK then none else some { code := err }

/-- `X509VerifyError::as_raw`. -/
def X509VerifyError.as_raw (e : X509VerifyError) : Int := e.code

/-- `c_long::max_value()` on the modelled 64-bit platform. -/
def c_long_max : Nat := 2 ^ 63 - 1

/-- The native DER decoder `d2i_X509` as an opaque fallible environment:
it sees exactly the bytes it was handed (base pointer plus length) and
either produces a certificate handle or fails with an error stack. -/
structure DerEnv where
  d2i_X509 : List Nat → Except Nat Nat

/-- `X509::from_der`: `len = cmp::min(buf.len(), c_long::max_value() as usize)`
is handed to the decoder together with the buffer's base pointer, so the
decoder sees the first `len` bytes of the buffer. -/
def X509.from_der (env : DerEnv) (buf : List Nat) : Except Nat Nat :=
  env.d2i_X509 (buf.take (min buf.length c_long_max))

/-- A decoder environment that accepts any input, for concrete runs. -/
def derEnvOk : DerEnv :=
  { d2i_X509 := fun _ => Except.ok 0 }

/-- An OpenSSL `GENERAL_NAME`: the variant tag `type_` together with the
payload bytes of its ASN.1 string, as read back through
`ASN1_STRING_data`/`ASN1_STRING_length`. -/
structure GeneralName where
  type_ : Int
  d : List Nat
deriving DecidableEq, Repr

/-- `ffi::GEN_DNS`, the `dNSName` variant tag. -/
def GEN_DNS : Int := 2

/-- `ffi::GEN_IPADD`, the `iPAddress` variant tag. -/
def GEN_IPADD : Int := 7

/-- `struct GeneralNames`: the decoded SAN stack. -/
structure GeneralNames where
  stack : List GeneralName
deriving DecidableEq, Repr

/-- `GeneralNames::len`. -/
def GeneralNames.len (ns : GeneralNames) : Nat := ns.stack.length

/-- `GeneralNames::get`: `assert!(idx < self.len())`, then direct access to
slot `idx`; `none` models the panic of a failed assertion. -/
def GeneralNames.get (ns : GeneralNames) (idx : Nat) : Option GeneralName :=
  if h : idx < ns.len then some (ns.stack.get ⟨idx, h⟩) else none

/-- `struct GeneralNamesIter`. -/
structure GeneralNamesIter where
  names : GeneralNames
  idx : Nat

/-- `GeneralNames::iter`. -/
def GeneralNames.iter (ns : GeneralNames) : GeneralNamesIter :=
  { names := ns, idx := 0 }

/-- `GeneralNamesIter::next`: bounds test, then `get` at the cursor (the
inner `none` is unreachable, the preceding test guards the `get`). -/
def GeneralNamesIter.next (it : GeneralNamesIter) :
    Option (GeneralName × GeneralNamesIter) :=
  if it.idx < it.names.len then
    match it.names.get it.idx with
    | some name => some (name, { names := it.names, idx := it.idx + 1 })
    | none => none
  else
    none

/-- The (finite) sequence produced by exhausting a `GeneralNamesIter`. -/
def GeneralNamesIter.toList (it : GeneralNamesIter) : List GeneralName :=
  match h : it.next with
  | some (x, it2) => x :: it2.toList
  | none => []
termination_by it.names.len - it.idx
decreasing_by
  simp only [GeneralNamesIter.next] at h
  split at h
  · split at h
    · simp only [Option.some.injEq] at h
      cases h
      simp
      omega
    · exact absurd h (by simp)
  · exact absurd h (by simp)

/-- A sample SAN entry carrying the DNS name `example.com`. -/
def gnDns : GeneralName :=
  { type_ := GEN_DNS
    d := [101, 120, 97, 109, 112, 108, 101, 46, 99, 111, 109] }

/-- A sample SAN entry carrying the IPv4 address 127.0.0.1. -/
def gnIp : GeneralName :=
  { type_ := GEN_IPADD, d := [127, 0, 0, 1] }

/-- Modelled from the spec: Rust's `str::from_utf8`, the standard-library
decoder `dnsname` calls — "the raw bytes are interpreted as text and the
call fails soft (returns None) rather than trusting an unchecked
encoding".  The decoder accepts exactly the RFC 3629 encodings (no bare
continuation bytes, no overlong forms, no surrogates, nothing above
U+10FFFF) and yields the decoded Unicode scalar values. -/
def utf8Decode : List Nat → Option (List Nat)
  | [] => some []
  | b0 :: rest =>
    if b0 < 0x80 then
      (utf8Decode rest).map (fun cs => b0 :: cs)
    else if b0 < 0xC2 then none
    else if b0 < 0xE0 then
      match rest with
      | b1 :: rest2 =>
        if 0x80 ≤ b1 ∧ b1 < 0xC0 then
          (utf8Decode rest2).map (fun cs => ((b0 - 0xC0) * 0x40 + (b1 - 0x80)) :: cs)
        else none
      | [] => none
    else if b0 < 0xF0 then
      match rest with
      | b1 :: b2 :: rest2 =>
        if (if b0 = 0xE0 then 0xA0 else 0x80) ≤ b1 ∧
            b1 < (if b0 = 0xED then 0xA0 else 0xC0) ∧
            0x80 ≤ b2 ∧ b2 < 0xC0 then
          (utf8Decode rest2).map
            (fun cs => ((b0 - 0xE0) * 0x1000 + (b1 - 0x80) * 0x40 + (b2 - 0x80)) :: cs)
        else none
      | _ => none
    else if b0 < 0xF5 then
      match rest with
      | b1 :: b2 :: b3 :: rest2 =>
        if (if b0 = 0xF0 then 0x90 else 0x80) ≤ b1 ∧
            b1 < (if b0 = 0xF4 then 0x90 else 0xC0) ∧
            0x80 ≤ b2 ∧ b2 < 0xC0 ∧ 0x80 ≤ b3 ∧ b3 < 0xC0 then
          (utf8Decode rest2).map
            (fun cs => ((b0 - 0xF0) * 0x40000 + (b1 - 0x80) * 0x1000 +
              (b2 - 0x80) * 0x40 + (b3 - 0x80)) :: cs)
        else none
      | _ => none
    else none

/-- A Unicode scalar value: any code point below U+110000 outside the
UTF-16 surrogate range. -/
def ScalarValue (n : Nat) : Prop :=
  n < 0xD800 ∨ (0xE000 ≤ n ∧ n < 0x110000)

/-- The standard UTF-8 encoding of one scalar value. -/
def utf8EncodeChar (n : Nat) : List Nat :=
  if n < 0x80 then [n]
  else if n < 0x800 then
    [0xC0 + n / 0x40, 0x80 + n % 0x40]
  else if n < 0x10000 then
    [0xE0 + n / 0x1000, 0x80 + n / 0x40 % 0x40, 0x80 + n % 0x40]
  else
    [0xF0 + n / 0x40000, 0x80 + n / 0x1000 % 0x40, 0x80 + n / 0x40 % 0x40,
      0x80 + n % 0x40]

/-- The UTF-8 encoding of a sequence of scalar values. -/
def utf8Encode (cs : List Nat) : List Nat :=
  (cs.map utf8EncodeChar).flatten

/-- `GeneralName::dnsname`: `None` unless the tag is `GEN_DNS`; otherwise
the payload bytes are read back (`ASN1_STRING_data`/`length`) and passed
through `str::from_utf8`, failing soft to `None` on invalid text. -/
def GeneralName.dnsname (n : GeneralName) : Option (List Nat) :=
  if n.type_ ≠ GEN_DNS then none
  else utf8Decode n.d

/-- `GeneralName::ipaddress`: `None` unless the tag is `GEN_IPADD`;
otherwise the raw payload bytes, unmodified. -/
def GeneralName.ipaddress (n : GeneralName) : Option (List Nat) :=
  if n.type_ ≠ GEN_IPADD then none
  else some n.d

/-- An opaque native error stack (`ErrorStack`). -/
abbrev ErrStack := Nat

/-- An opaque private-key handle (`PKey`). -/
abbrev PKey := Nat

/-- An opaque digest-algorithm handle (`MessageDigest`). -/
abbrev MessageDigest := Nat

/-- `MessageDigest::sha1`, the default signing hash. -/
def MessageDigest.sha1 : MessageDigest := 1

/-- `Extension`'s `to_string()`: the textual value consumed by the
extension-encoding step. -/
def Extension.to_string (e : Extension) : String := e.value

/-- The native environment `X509Generator::sign`/`request` call into: each
fallible foreign call is an explicit outcome, keyed by the arguments the
code passes it. -/
structure SignEnv where
  x509_new : Except ErrStack Unit
  set_version : Except ErrStack Unit
  rand_bytes : Except ErrStack (List Nat)
  set_serial : Int → Except ErrStack Unit
  days_from_now : Nat → Except ErrStack Nat
  set_notBefore : Nat → Except ErrStack Unit
  set_notAfter : Nat → Except ErrStack Unit
  set_pubkey : PKey → Except ErrStack Unit
  get_subject_name : Except ErrStack Unit
  add_name_entry : String → String → Except ErrStack Unit
  set_issuer_name : Except ErrStack Unit
  ext_conf : ExtensionType → String → Except ErrStack Unit
  add_ext : ExtensionType → String → Except ErrStack Unit
  x509_sign : PKey → MessageDigest → Except ErrStack Unit
  to_req : Except ErrStack Unit
  req_add_extensions : List (ExtensionType × String) → Except ErrStack Unit
  req_sign : PKey → MessageDigest → Except ErrStack Unit

/-- `struct X509Generator`: the builder state of the self-sign workflow. -/
structure X509Generator where
  days : Nat
  names : List (String × String)
  extensions : Extensions
  hash_type : MessageDigest
deriving DecidableEq, Repr

/-- `X509Generator::new`: 365 days, no names, no extensions, SHA-1. -/
def X509Generator.new : X509Generator :=
  { days := 365, names := [], extensions := Extensions.new
    hash_type := MessageDigest.sha1 }

/-- `X509Generator::set_valid_period`. -/
def X509Generator.set_valid_period (gen : X509Generator) (days : Nat) : X509Generator :=
  { gen with days := days }

/-- `X509Generator::add_name`. -/
def X509Generator.add_name (gen : X509Generator) (attr_type attr_value : String) :
    X509Generator :=
  { gen with names := gen.names ++ [(attr_type, attr_value)] }

/-- `X509Generator::add_names`. -/
def X509Generator.add_names (gen : X509Generator) (attrs : List (String × String)) :
    X509Generator :=
  { gen with names := gen.names ++ attrs }

/-- `X509Generator::add_extension`. -/
def X509Generator.add_extension (gen : X509Generator) (ext : Extension) : X509Generator :=
  { gen with extensions := gen.extensions.add ext }

/-- `X509Generator::add_extensions`. -/
def X509Generator.add_extensions (gen : X509Generator) (exts : List Extension) :
    X509Generator :=
  { gen with extensions := exts.foldl Extensions.add gen.extensions }

/-- `X509Generator::set_sign_hash`. -/
def X509Generator.set_sign_hash (gen : X509Generator) (hash_type : MessageDigest) :
    X509Generator :=
  { gen with hash_type := hash_type }

/-- The observable content of the native certificate object assembled by
`sign`. -/
structure X509Cert where
  version : Nat
  serial : Int
  notBefore : Nat
  notAfter : Nat
  pubkey : PKey
  subject : List (String × String)
  issuer : List (String × String)
  extensions : List (ExtensionType × String)
  signedWith : PKey × MessageDigest
deriving DecidableEq, Repr

/-- The observable content of the native CSR object built by `request`. -/
structure X509Req where
  subject : List (String × String)
  pubkey : PKey
  requestedExtensions : List (ExtensionType × String)
  reqSignedWith : Option (PKey × MessageDigest)
deriving DecidableEq, Repr

/-- The name entries `sign` feeds the subject name: the single default
`("CN", "rust-openssl")` when no entries were supplied, otherwise exactly
the supplied entries in their given order. -/
def X509Generator.effectiveNames (gen : X509Generator) : List (String × String) :=
  if gen.names.length = 0 then [("CN", "rust-openssl")] else gen.names

/-- The subject-name loop of `sign`: each `(key, value)` entry is added via
`X509_NAME_add_entry_by_txt` (`add_name_internal`); the first failure
aborts. -/
def addNamesLoop (env : SignEnv) : List (String × String) → Except ErrStack Unit
  | [] => Except.ok ()
  | kv :: rest => do
    let _ ← env.add_name_entry kv.1 kv.2
    addNamesLoop env rest

/-- The extension loop of `sign`: for each `(exttype, ext)` yielded by
`Extensions::iter`, `add_extension_internal` first encodes `ext.to_string()`
(`X509V3_EXT_conf_nid` or `X509V3_EXT_conf` depending on the type's numeric
kind) and then attaches the result (`X509_add_ext`); the first failure
aborts. -/
def addExtsLoop (env : SignEnv) : List (ExtensionType × Extension) → Except ErrStack Unit
  | [] => Except.ok ()
  | te :: rest => do
    let _ ← env.ext_conf te.1 te.2.to_string
    let _ ← env.add_ext te.1 te.2.to_string
    addExtsLoop env rest

/-- `X509Generator::sign`: allocate a fresh certificate, set version 2
(X.509v3), set a freshly drawn random serial, compute and set the validity
window, set the public key, fetch the subject name handle, add the
effective name entries, set the issuer equal to the subject, attach the
extensions in iteration order, and sign with the configured hash; `try!`
on every step aborts the whole call with that step's error. -/
def X509Generator.sign (gen : X509Generator) (p_key : PKey) (env : SignEnv) :
    Except ErrStack X509Cert := do
  let _ ← env.x509_new
  let _ ← env.set_version
  let bytes ← env.rand_bytes
  let serial := X509Generator.random_serial bytes
  let _ ← env.set_serial serial
  let not_before ← env.days_from_now 0
  let not_after ← env.days_from_now gen.days
  let _ ← env.set_notBefore not_before
  let _ ← env.set_notAfter not_after
  let _ ← env.set_pubkey p_key
  let _ ← env.get_subject_name
  let entries := gen.effectiveNames
  let _ ← addNamesLoop env entries
  let _ ← env.set_issuer_name
  let _ ← addExtsLoop env gen.extensions.iterList
  let _ ← env.x509_sign p_key gen.hash_type
  Except.ok
    { version := 2
      serial := serial
      notBefore := not_before
      notAfter := not_after
      pubkey := p_key
      subject := entries
      issuer := entries
      extensions := gen.extensions.iterList.map (fun te => (te.1, te.2.to_string))
      signedWith := (p_key, gen.hash_type) }

/-- `X509Generator::request`: run the full `sign` workflow, propagating its
error unchanged on failure; otherwise convert the certificate into a CSR
(`X509_to_X509_REQ`), copy the certificate's extension stack into the CSR
as requested extensions exactly when that stack is non-null (some
extension was attached), and re-sign the CSR with the same private key and
the configured hash. -/
def X509Generator.request (gen : X509Generator) (p_key : PKey) (env : SignEnv) :
    Except ErrStack X509Req :=
  match gen.sign p_key env with
  | Except.error x => Except.error x
  | Except.ok cert => do
    let _ ← env.to_req
    let _ ← if cert.extensions ≠ [] then env.req_add_extensions cert.extensions
            else Except.ok ()
    let _ ← env.req_sign p_key gen.hash_type
    Except.ok
      { subject := cert.subject
        pubkey := cert.pubkey
        requestedExtensions :=
          if cert.extensions ≠ [] then cert.extensions else []
        reqSignedWith := some (p_key, gen.hash_type) }

/-- A native call outcome that succeeded. -/
def StepOk {α : Type} (x : Except ErrStack α) : Prop :=
  ∃ a, x = Except.ok a

/-- Every step `sign` performs succeeds, each conditioned on the values the
preceding steps produced. -/
def signStepsOk (gen : X509Generator) (p_key : PKey) (env : SignEnv) : Prop :=
  StepOk env.x509_new ∧
  StepOk env.set_version ∧
  StepOk env.rand_bytes ∧
  (∀ bytes, env.rand_bytes = Except.ok bytes →
    StepOk (env.set_serial (X509Generator.random_serial bytes))) ∧
  StepOk (env.days_from_now 0) ∧
  StepOk (env.days_from_now gen.days) ∧
  (∀ t, env.days_from_now 0 = Except.ok t → StepOk (env.set_notBefore t)) ∧
  (∀ t, env.days_from_now gen.days = Except.ok t → StepOk (env.set_notAfter t)) ∧
  StepOk (env.set_pubkey p_key) ∧
  StepOk env.get_subject_name ∧
  (∀ kv ∈ gen.effectiveNames, StepOk (env.add_name_entry kv.1 kv.2)) ∧
  StepOk env.set_issuer_name ∧
  (∀ te ∈ gen.extensions.iterList,
    StepOk (env.ext_conf te.1 te.2.to_string) ∧
    StepOk (env.add_ext te.1 te.2.to_string)) ∧
  StepOk (env.x509_sign p_key gen.hash_type)

/-- An environment in which every native call succeeds, the provider draws
the bytes `7, 7, ..., 7`, and `ASN1_TIME` values are represented by the
requested day offset. -/
def allOkEnv : SignEnv :=
  { x509_new := Except.ok ()
    set_version := Except.ok ()
    rand_bytes := Except.ok (List.replicate c_long_bytes 7)
    set_serial := fun _ => Except.ok ()
    days_from_now := fun d => Except.ok d
    set_notBefore := fun _ => Except.ok ()
    set_notAfter := fun _ => Except.ok ()
    set_pubkey := fun _ => Except.ok ()
    get_subject_name := Except.ok ()
    add_name_entry := fun _ _ => Except.ok ()
    set_issuer_name := Except.ok ()
    ext_conf := fun _ _ => Except.ok ()
    add_ext := fun _ _ => Except.ok ()
    x509_sign := fun _ _ => Except.ok ()
    to_req := Except.ok ()
    req_add_extensions := fun _ => Except.ok ()
    req_sign := fun _ _ => Except.ok () }

/-- The certificate `sign` produces for a fresh generator under
`allOkEnv`. -/
def newCert : X509Cert :=
  { version := 2
    serial := X509Generator.random_serial (List.replicate c_long_bytes 7)
    notBefore := 0
    notAfter := 365
    pubkey := 1
    subject := [("CN", "rust-openssl")]
    issuer := [("CN", "rust-openssl")]
    extensions := []
    signedWith := (1, MessageDigest.sha1) }

/-- Coherence invariant between the vector and the index map: every binding
points in bounds at an extension of the bound type, and every stored
extension's type is bound to its own position. -/
def Extensions.Coherent (s : Extensions) : Prop :=
  (∀ t i, hmGet s.indexes t = some i →
    ∃ e, s.extensions[i]? = some e ∧ e.get_type = t) ∧
  (∀ i e, s.extensions[i]? = some e → hmGet s.indexes e.get_type = some i)

theorem hmGet_hmInsert_self (m : List (ExtensionType × Nat)) (k : ExtensionType) (v : Nat) :
    hmGet (hmInsert m k v) k = some v := by
  induction m with
  | nil => simp [hmInsert, hmGet]
  | cons hd tl ih =>
    obtain ⟨k2, v2⟩ := hd
    by_cases hk : k2 = k
    · simp [hmInsert, hmGet, hk]
    · simp [hmInsert, hmGet, hk, ih]

theorem hmGet_hmInsert_ne (m : List (ExtensionType × Nat)) (k t : ExtensionType) (v : Nat)
    (hne : t ≠ k) : hmGet (hmInsert m k v) t = hmGet m t := by
  induction m with
  | nil => simp [hmInsert, hmGet, Ne.symm hne]
  | cons hd tl ih =>
    obtain ⟨k2, v2⟩ := hd
    by_cases hk : k2 = k
    · subst hk
      simp [hmInsert, hmGet, Ne.symm hne]
    · simp only [hmInsert, if_neg hk, hmGet]
      by_cases ht : k2 = t
      · simp [ht]
      · simp [ht, ih]

/-- `Extensions::add` in its replace-in-place branch: the index map already
binds the type of the new extension. -/
theorem Extensions.add_replace (s : Extensions) (ext : Extension) (index : Nat)
    (hget : hmGet s.indexes ext.get_type = some index) :
    s.add ext = { s with extensions := s.extensions.set index ext } := by
  simp [Extensions.add, hget]

/-- `Extensions::add` in its push branch: the type of the new extension is
not yet present. -/
theorem Extensions.add_push (s : Extensions) (ext : Extension)
    (hget : hmGet s.indexes ext.get_type = none) :
    s.add ext = { extensions := s.extensions ++ [ext]
                  indexes := hmInsert s.indexes ext.get_type s.extensions.length } := by
  simp [Extensions.add, hget]

theorem coherent_new : Extensions.new.Coherent := by
  constructor
  · intro t i h
    simp [Extensions.new, hmGet] at h
  · intro i e h
    simp [Extensions.new] at h

theorem coherent_add (s : Extensions) (ext : Extension) (hs : s.Coherent) :
    (s.add ext).Coherent := by
  obtain ⟨h1, h2⟩ := hs
  cases hget : hmGet s.indexes ext.get_type with
  | some index =>
    rw [Extensions.add_replace s ext index hget]
    obtain ⟨e0, he0, he0t⟩ := h1 ext.get_type index hget
    have hidx : index < s.extensions.length := by
      rcases List.getElem?_eq_some_iff.mp he0 with ⟨h, _⟩
      exact h
    constructor
    · intro t i h
      obtain ⟨e, he, het⟩ := h1 t i h
      by_cases hii : index = i
      · subst hii
        refine ⟨ext, List.getElem?_set_self hidx, ?_⟩
        rw [he0] at he
        cases he
        rw [← he0t, het]
      · exact ⟨e, by rw [List.getElem?_set_ne hii]; exact he, het⟩
    · intro i e he
      by_cases hii : index = i
      · subst hii
        rw [List.getElem?_set_self hidx] at he
        cases he
        exact hget ▸ congrArg (hmGet s.indexes) rfl
      · rw [List.getElem?_set_ne hii] at he
        exact h2 i e he
  | none =>
    rw [Extensions.add_push s ext hget]
    constructor
    · intro t i h
      simp only at h
      by_cases ht : t = ext.get_type
      · subst ht
        rw [hmGet_hmInsert_self] at h
        cases h
        refine ⟨ext, ?_, rfl⟩
        rw [List.getElem?_append_right (Nat.le_refl _)]
        simp
      · rw [hmGet_hmInsert_ne _ _ _ _ ht] at h
        obtain ⟨e, he, het⟩ := h1 t i h
        have hi : i < s.extensions.length := by
          rcases List.getElem?_eq_some_iff.mp he with ⟨hh, _⟩
          exact hh
        exact ⟨e, by rw [List.getElem?_append_left hi]; exact he, het⟩
    · intro i e he
      simp only at he
      by_cases hlt : i < s.extensions.length
      · rw [List.getElem?_append_left hlt] at he
        have hold := h2 i e he
        have htne : e.get_type ≠ ext.get_type := by
          intro heq
          rw [heq, hget] at hold
          exact Option.noConfusion hold
        rw [hmGet_hmInsert_ne _ _ _ _ htne]
        exact hold
      · have hle : s.extensions.length ≤ i := Nat.le_of_not_lt hlt
        rw [List.getElem?_append_right hle] at he
        have : i - s.extensions.length < 1 := by
          rcases List.getElem?_eq_some_iff.mp he with ⟨hh, _⟩
          simpa using hh
        have hieq : i = s.extensions.length := by omega
        subst hieq
        simp only [Nat.sub_self] at he
        simp only [List.getElem?_cons_zero, Option.some.injEq] at he
        subst he
        exact hmGet_hmInsert_self _ _ _

theorem coherent_build (adds : List Extension) : (buildExtensions adds).Coherent := by
  suffices h : ∀ s : Extensions, s.Coherent → (adds.foldl Extensions.add s).Coherent by
    exact h Extensions.new coherent_new
  induction adds with
  | nil => intro s hs; exact hs
  | cons hd tl ih =>
    intro s hs
    exact ih _ (coherent_add s hd hs)

theorem ExtensionsIter.toList_unfold (it : ExtensionsIter) :
    it.toList = match it.next with
      | some xit => xit.1 :: xit.2.toList
      | none => [] := by
  rw [ExtensionsIter.toList]
  split
  · rename_i x it2 h
    rw [h]
  · rename_i h
    rw [h]

/-- Exhausting the iterator from cursor `i` yields the image of the suffix of
the vector from position `i`. -/
theorem ExtensionsIter.toList_eq (l : List Extension) (i : Nat) :
    ExtensionsIter.toList { current := i, extensions := l } =
      (l.drop i).map (fun e => (e.get_type, e)) := by
  suffices key : ∀ n j, l.length - j = n →
      ExtensionsIter.toList { current := j, extensions := l } =
        (l.drop j).map (fun e => (e.get_type, e)) by
    exact key (l.length - i) i rfl
  intro n
  induction n with
  | zero =>
    intro j hj
    have hle : l.length ≤ j := by omega
    rw [ExtensionsIter.toList_unfold]
    have hnone : ExtensionsIter.next { current := j, extensions := l } = none := by
      simp [ExtensionsIter.next, Nat.not_lt.mpr hle]
    rw [hnone, List.drop_eq_nil_of_le hle]
    simp
  | succ n ih =>
    intro j hj
    have hlt : j < l.length := by omega
    rw [ExtensionsIter.toList_unfold]
    have hsome : ExtensionsIter.next { current := j, extensions := l } =
        some ((l[j].get_type, l[j]), { current := j + 1, extensions := l }) := by
      simp [ExtensionsIter.next, hlt]
    rw [hsome]
    rw [List.drop_eq_getElem_cons hlt]
    simp only [List.map_cons]
    rw [ih (j + 1) (by omega)]

/-- `Extensions::iter` run to completion yields exactly the stored vector,
each extension paired with its own type, in order. -/
theorem Extensions.iterList_eq (s : Extensions) :
    s.iterList = s.extensions.map (fun e => (e.get_type, e)) := by
  have h := ExtensionsIter.toList_eq s.extensions 0
  rw [List.drop_zero] at h
  exact h

/-- In a coherent collection the stored types are pairwise distinct. -/
theorem coherent_types_nodup (s : Extensions) (hs : s.Coherent) :
    (s.extensions.map Extension.get_type).Nodup := by
  obtain ⟨-, h2⟩ := hs
  rw [List.nodup_iff_getElem?_ne_getElem?]
  intro i j hij hj hcontra
  rw [List.length_map] at hj
  have hi : i < s.extensions.length := lt_trans hij hj
  rw [List.getElem?_map, List.getElem?_map] at hcontra
  rcases hei : s.extensions[i]? with - | ei
  · rw [List.getElem?_eq_none_iff] at hei; omega
  rcases hej : s.extensions[j]? with - | ej
  · rw [List.getElem?_eq_none_iff] at hej; omega
  rw [hei, hej] at hcontra
  simp only [Option.map_some', Option.some.injEq] at hcontra
  have hgi := h2 i ei hei
  have hgj := h2 j ej hej
  rw [hcontra, hgj] at hgi
  simp only [Option.some.injEq] at hgi
  omega

/-- C1: for every finite sequence of `Extensions.add` calls starting from
`Extensions.new()`, the resulting collection contains at most one
`Extension` per `ExtensionType`; adding an extension whose type is already
present overwrites the stored extension at its existing position (all other
extensions, and their order, untouched); adding an extension of a fresh
type appends it at the end; and `iter()` yields the extensions in this
insertion order, each paired with its type. -/
theorem extensions_add_unique_in_place (adds : List Extension) (ext : Extension) :
    ((buildExtensions adds).extensions.map Extension.get_type).Nodup ∧
    (∀ i e, (buildExtensions adds).extensions[i]? = some e →
      e.get_type = ext.get_type →
      ((buildExtensions adds).add ext).extensions =
        (buildExtensions adds).extensions.set i ext) ∧
    ((∀ e ∈ (buildExtensions adds).extensions, e.get_type ≠ ext.get_type) →
      ((buildExtensions adds).add ext).extensions =
        (buildExtensions adds).extensions ++ [ext]) ∧
    (buildExtensions adds).iterList =
      (buildExtensions adds).extensions.map (fun e => (e.get_type, e)) := by
  obtain ⟨h1, h2⟩ := coherent_build adds
  refine ⟨coherent_types_nodup _ (coherent_build adds), ?_, ?_, Extensions.iterList_eq _⟩
  · intro i e he het
    have hbind : hmGet (buildExtensions adds).indexes ext.get_type = some i := by
      rw [← het]
      exact h2 i e he
    rw [Extensions.add_replace _ ext i hbind]
  · intro hfresh
    have hnone : hmGet (buildExtensions adds).indexes ext.get_type = none := by
      rcases hcase : hmGet (buildExtensions adds).indexes ext.get_type with - | i
      · rfl
      · obtain ⟨e, he, het⟩ := h1 ext.get_type i hcase
        exact absurd het (hfresh e (List.getElem?_mem he))
    rw [Extensions.add_push _ ext hnone]

/-- C1 witness: replacing the key-usage extension in a two-element
collection overwrites position 0 in place. -/
theorem extensions_add_unique_in_place_witness :
    ((buildExtensions [extKeyUsage, extAltName]).add extKeyUsage2).extensions =
      (buildExtensions [extKeyUsage, extAltName]).extensions.set 0 extKeyUsage2 :=
  (extensions_add_unique_in_place [extKeyUsage, extAltName] extKeyUsage2).2.1 0
    extKeyUsage (by decide) (by decide)

/-- C10: for every finite sequence of `Extensions.add` calls starting from
`Extensions.new()`, the index map and the extension vector stay coherent:
a type is bound in the map exactly when an extension of that type is
stored, every binding points in bounds at an extension of the bound type,
and every pair yielded by `iter()` consists of an extension together with
its own `get_type()`. -/
theorem extensions_index_vector_coherent (adds : List Extension) :
    (∀ t, (∃ i, hmGet (buildExtensions adds).indexes t = some i) ↔
      t ∈ (buildExtensions adds).extensions.map Extension.get_type) ∧
    (∀ t i, hmGet (buildExtensions adds).indexes t = some i →
      ∃ e, (buildExtensions adds).extensions[i]? = some e ∧ e.get_type = t) ∧
    (∀ p ∈ (buildExtensions adds).iterList, p.1 = p.2.get_type) := by
  obtain ⟨h1, h2⟩ := coherent_build adds
  refine ⟨?_, h1, ?_⟩
  · intro t
    constructor
    · rintro ⟨i, hi⟩
      obtain ⟨e, he, het⟩ := h1 t i hi
      rw [List.mem_map]
      exact ⟨e, List.getElem?_mem he, het⟩
    · intro hmem
      rw [List.mem_map] at hmem
      obtain ⟨e, he, het⟩ := hmem
      rw [List.mem_iff_getElem?] at he
      obtain ⟨i, hi⟩ := he
      exact ⟨i, het ▸ h2 i e hi⟩
  · intro p hp
    rw [Extensions.iterList_eq] at hp
    rw [List.mem_map] at hp
    obtain ⟨e, -, hpe⟩ := hp
    rw [← hpe]

/-- C10 witness: on a concrete two-element collection the key-usage type is
bound in the index map. -/
theorem extensions_index_vector_coherent_witness :
    ∃ i, hmGet (buildExtensions [extKeyUsage, extAltName]).indexes
      (ExtensionType.nid 15) = some i :=
  ((extensions_index_vector_coherent [extKeyUsage, extAltName]).1
    (ExtensionType.nid 15)).mpr (by decide)

theorem serialAssemble_step_lt (res b : Nat) :
    res * 256 % 2 ^ 64 + b % 256 < 2 ^ 64 := by
  have h1 : res * 256 % 2 ^ 64 = 256 * (res % 2 ^ 56) := by
    have he : (2 : Nat) ^ 64 = 256 * 2 ^ 56 := by norm_num
    rw [he, Nat.mul_comm res 256, Nat.mul_mod_mul_left]
  have h2 : res % 2 ^ 56 < 2 ^ 56 := Nat.mod_lt _ (by norm_num)
  have h3 : b % 256 < 256 := Nat.mod_lt _ (by norm_num)
  omega

/-- The assembled serial fits the 64-bit native word. -/
theorem serialAssemble_lt (bytes : List Nat) : serialAssemble bytes < 2 ^ 64 := by
  suffices h : ∀ acc, acc < 2 ^ 64 →
      List.foldl (fun res b => res * 256 % 2 ^ 64 + b % 256) acc bytes < 2 ^ 64 by
    exact h 0 (by norm_num)
  induction bytes with
  | nil =>
    intro acc hacc
    simpa [List.foldl] using hacc
  | cons hd tl ih =>
    intro acc hacc
    simp only [List.foldl]
    exact ih _ (serialAssemble_step_lt acc hd)

/-- C2 counterexample: the all-zero draw has exactly the provider's width
(8 bytes of valid byte values) yet `random_serial` returns 0, which is not
strictly positive — the claimed positivity fails on this input. -/
theorem random_serial_zero_counterexample :
    (List.replicate c_long_bytes 0).length = c_long_bytes ∧
    (∀ b ∈ List.replicate c_long_bytes 0, b < 256) ∧
    ¬ 0 < X509Generator.random_serial (List.replicate c_long_bytes 0) := by
  refine ⟨by simp, by decide, by decide⟩

/-- C2 (amended): for every byte sequence the random-byte provider returns
(8 bytes, each a byte value), `random_serial` assembles the bytes
big-endian into the unsigned 64-bit native word and right-shifts it by one
bit; the returned serial equals that shifted value, is nonnegative, and is
strictly positive whenever the assembled word is at least 2 (every draw
other than those encoding 0 or 1). -/
theorem random_serial_shift_nonneg (bytes : List Nat)
    (hlen : bytes.length = c_long_bytes) (hbyte : ∀ b ∈ bytes, b < 256) :
    X509Generator.random_serial bytes = ((serialAssemble bytes / 2 : Nat) : Int) ∧
    0 ≤ X509Generator.random_serial bytes ∧
    (2 ≤ serialAssemble bytes → 0 < X509Generator.random_serial bytes) := by
  have hlt : serialAssemble bytes < 2 ^ 64 := serialAssemble_lt bytes
  have hhalf : serialAssemble bytes / 2 < 2 ^ 63 := by omega
  have hval : X509Generator.random_serial bytes =
      ((serialAssemble bytes / 2 : Nat) : Int) := by
    rw [X509Generator.random_serial, toSigned64, if_pos hhalf]
  refine ⟨hval, ?_, ?_⟩
  · rw [hval]
    exact Int.natCast_nonneg _
  · intro h2
    rw [hval]
    have : 1 ≤ serialAssemble bytes / 2 := Nat.le_div_iff_mul_le (by norm_num) |>.mpr h2
    exact_mod_cast this

/-- C2 witness: a concrete full-byte draw is in scope of the amended claim
and yields a strictly positive serial. -/
theorem random_serial_shift_nonneg_witness :
    (List.replicate c_long_bytes 7).length = c_long_bytes ∧
    (∀ b ∈ List.replicate c_long_bytes 7, b < 256) ∧
    0 < X509Generator.random_serial (List.replicate c_long_bytes 7) :=
  ⟨by simp, by decide,
    (random_serial_shift_nonneg (List.replicate c_long_bytes 7) (by simp)
      (by decide)).2.2 (by decide)⟩

/-- C6: `X509VerifyError::from_raw(code)` returns `None` exactly when
`code` is the reserved OK sentinel `X509_V_OK`; for every other code it
returns `Some` of a wrapper carrying exactly that code, observable via
`as_raw`. -/
theorem from_raw_none_iff_ok (err : Int) :
    (X509VerifyError.from_raw err = none ↔ err = X509_V_OK) ∧
    (err ≠ X509_V_OK →
      ∃ e, X509VerifyError.from_raw err = some e ∧ e.as_raw = err) := by
  constructor
  · by_cases h : err = X509_V_OK
    · simp [X509VerifyError.from_raw, h]
    · simp [X509VerifyError.from_raw, h]
  · intro hne
    exact ⟨{ code := err }, by simp [X509VerifyError.from_raw, hne], rfl⟩

/-- C6 witness: the concrete non-OK code 20 is wrapped, carrying 20. -/
theorem from_raw_none_iff_ok_witness :
    ∃ e, X509VerifyError.from_raw 20 = some e ∧ e.as_raw = 20 :=
  (from_raw_none_iff_ok 20).2 (by decide)

/-- C9: `X509::from_der` hands the decoder a length equal to the minimum of
the buffer's length and `c_long::max_value()` — a buffer that fits is
passed whole, an oversized buffer is truncated to the maximum rather than
rejected, and the wrapper never fails for size reasons of its own (its
outcome is exactly the decoder's outcome on the capped bytes). -/
theorem from_der_caps_length (env : DerEnv) (buf : List Nat) :
    (buf.take (min buf.length c_long_max)).length = min buf.length c_long_max ∧
    (buf.length ≤ c_long_max → X509.from_der env buf = env.d2i_X509 buf) ∧
    ((∃ c, X509.from_der env buf = Except.ok c) ↔
      ∃ c, env.d2i_X509 (buf.take (min buf.length c_long_max)) = Except.ok c) := by
  refine ⟨?_, ?_, Iff.rfl⟩
  · rw [List.length_take]
    omega
  · intro hle
    rw [X509.from_der]
    have hmin : min buf.length c_long_max = buf.length := by omega
    rw [hmin, List.take_length]

/-- C9 witness: a concrete three-byte buffer fits below the cap and reaches
the decoder whole. -/
theorem from_der_caps_length_witness :
    X509.from_der derEnvOk [48, 1, 2] = derEnvOk.d2i_X509 [48, 1, 2] :=
  (from_der_caps_length derEnvOk [48, 1, 2]).2.1 (by decide)

theorem GeneralNamesIter.toList_next_unfold (it : GeneralNamesIter) :
    it.toList = match it.next with
      | some xit => xit.1 :: xit.2.toList
      | none => [] := by
  rw [GeneralNamesIter.toList]
  split
  · rename_i x it2 h
    rw [h]
  · rename_i h
    rw [h]

/-- Exhausting a `GeneralNamesIter` from cursor `i` yields the suffix of
the stack from position `i`. -/
theorem GeneralNamesIter.toList_drop_eq (ns : GeneralNames) (i : Nat) :
    GeneralNamesIter.toList { names := ns, idx := i } = ns.stack.drop i := by
  suffices key : ∀ n j, ns.len - j = n →
      GeneralNamesIter.toList { names := ns, idx := j } = ns.stack.drop j by
    exact key (ns.len - i) i rfl
  intro n
  induction n with
  | zero =>
    intro j hj
    have hle : ns.len ≤ j := by omega
    rw [GeneralNamesIter.toList_next_unfold]
    have hnone : GeneralNamesIter.next { names := ns, idx := j } = none := by
      simp [GeneralNamesIter.next, Nat.not_lt.mpr hle]
    rw [hnone, List.drop_eq_nil_of_le hle]
  | succ n ih =>
    intro j hj
    have hlt : j < ns.len := by omega
    rw [GeneralNamesIter.toList_next_unfold]
    have hsome : GeneralNamesIter.next { names := ns, idx := j } =
        some (ns.stack.get ⟨j, hlt⟩, { names := ns, idx := j + 1 }) := by
      simp [GeneralNamesIter.next, GeneralNames.get, hlt]
    rw [hsome]
    show ns.stack.get ⟨j, hlt⟩ ::
        GeneralNamesIter.toList { names := ns, idx := j + 1 } = ns.stack.drop j
    rw [ih (j + 1) (by omega), List.drop_eq_getElem_cons hlt]
    simp

/-- C7: `GeneralNames.get(idx)` panics (modelled `none`) exactly when
`idx >= len()`; below `len()` it returns the entry at position `idx`; and
`iter()` — freshly restartable, always starting at cursor 0 — yields
exactly `get(0), get(1), ..., get(len()-1)` in order, i.e. the whole
stack. -/
theorem general_names_get_iter (ns : GeneralNames) (idx : Nat) :
    (ns.get idx = none ↔ ns.len ≤ idx) ∧
    (∀ h : idx < ns.len, ns.get idx = some (ns.stack.get ⟨idx, h⟩)) ∧
    GeneralNamesIter.toList ns.iter = ns.stack ∧
    (List.range ns.len).map ns.get = ns.stack.map some := by
  refine ⟨?_, ?_, ?_, ?_⟩
  · constructor
    · intro hnone
      by_contra hlt
      rw [GeneralNames.get, dif_pos (Nat.lt_of_not_le hlt)] at hnone
      exact Option.noConfusion hnone
    · intro hle
      rw [GeneralNames.get, dif_neg (Nat.not_lt.mpr hle)]
  · intro h
    rw [GeneralNames.get, dif_pos h]
  · have h := GeneralNamesIter.toList_drop_eq ns 0
    rw [List.drop_zero] at h
    exact h
  · apply List.ext_getElem
    · simp [GeneralNames.len]
    · intro i h1 h2
      rw [List.getElem_map, List.getElem_map, List.getElem_range]
      have hi : i < ns.len := by
        simpa [GeneralNames.len] using h2
      rw [GeneralNames.get, dif_pos hi]
      simp

/-- C7 witness: on a concrete two-entry list, index 5 is out of range and
the access aborts (modelled `none`). -/
theorem general_names_get_iter_witness :
    GeneralNames.get { stack := [gnDns, gnIp] } 5 = none :=
  (general_names_get_iter { stack := [gnDns, gnIp] } 5).1.mpr (by decide)

theorem exbind_ok {α β : Type} (a : α) (f : α → Except ErrStack β) :
    (Except.ok a >>= f) = f a := rfl

theorem exbind_error {α β : Type} (e : ErrStack) (f : α → Except ErrStack β) :
    ((Except.error e : Except ErrStack α) >>= f) = Except.error e := rfl

/-- The subject-name loop succeeds exactly when each entry's native add
call succeeds. -/
theorem addNamesLoop_ok (env : SignEnv) (l : List (String × String)) :
    StepOk (addNamesLoop env l) ↔
      ∀ kv ∈ l, StepOk (env.add_name_entry kv.1 kv.2) := by
  induction l with
  | nil => simp [addNamesLoop, StepOk]
  | cons hd tl ih =>
    simp only [addNamesLoop]
    cases h : env.add_name_entry hd.1 hd.2 with
    | error e =>
      rw [exbind_error]
      constructor
      · rintro ⟨a, ha⟩
        exact Except.noConfusion ha
      · intro hall
        rcases hall hd (List.mem_cons_self hd tl) with ⟨a, ha⟩
        rw [h] at ha
        exact Except.noConfusion ha
    | ok u =>
      simp only [exbind_ok]
      rw [ih]
      constructor
      · intro hall kv hkv
        rcases List.mem_cons.mp hkv with heq | hmem
        · subst heq
          exact ⟨u, h⟩
        · exact hall kv hmem
      · intro hall kv hkv
        exact hall kv (List.mem_cons_of_mem hd hkv)

/-- The extension loop succeeds exactly when, for each yielded pair, both
the encode call and the attach call succeed. -/
theorem addExtsLoop_ok (env : SignEnv) (l : List (ExtensionType × Extension)) :
    StepOk (addExtsLoop env l) ↔
      ∀ te ∈ l, StepOk (env.ext_conf te.1 te.2.to_string) ∧
        StepOk (env.add_ext te.1 te.2.to_string) := by
  induction l with
  | nil => simp [addExtsLoop, StepOk]
  | cons hd tl ih =>
    simp only [addExtsLoop]
    cases h1 : env.ext_conf hd.1 hd.2.to_string with
    | error e =>
      rw [exbind_error]
      constructor
      · rintro ⟨a, ha⟩
        exact Except.noConfusion ha
      · intro hall
        rcases (hall hd (List.mem_cons_self hd tl)).1 with ⟨a, ha⟩
        rw [h1] at ha
        exact Except.noConfusion ha
    | ok u1 =>
      simp only [exbind_ok]
      cases h2 : env.add_ext hd.1 hd.2.to_string with
      | error e =>
        rw [exbind_error]
        constructor
        · rintro ⟨a, ha⟩
          exact Except.noConfusion ha
        · intro hall
          rcases (hall hd (List.mem_cons_self hd tl)).2 with ⟨a, ha⟩
          rw [h2] at ha
          exact Except.noConfusion ha
      | ok u2 =>
        simp only [exbind_ok]
        rw [ih]
        constructor
        · intro hall kv hkv
          rcases List.mem_cons.mp hkv with heq | hmem
          · subst heq
            exact ⟨⟨u1, h1⟩, ⟨u2, h2⟩⟩
          · exact hall kv hmem
        · intro hall kv hkv
          exact hall kv (List.mem_cons_of_mem hd hkv)

/-- Elimination principle for a successful `sign`: every step succeeded and
the returned certificate has exactly the assembled shape. -/
theorem sign_ok_elim (gen : X509Generator) (p_key : PKey) (env : SignEnv)
    (cert : X509Cert) (h : gen.sign p_key env = Except.ok cert) :
    signStepsOk gen p_key env ∧
    ∃ bytes nb na,
      env.rand_bytes = Except.ok bytes ∧
      env.days_from_now 0 = Except.ok nb ∧
      env.days_from_now gen.days = Except.ok na ∧
      cert =
        { version := 2
          serial := X509Generator.random_serial bytes
          notBefore := nb
          notAfter := na
          pubkey := p_key
          subject := gen.effectiveNames
          issuer := gen.effectiveNames
          extensions := gen.extensions.iterList.map (fun te => (te.1, te.2.to_string))
          signedWith := (p_key, gen.hash_type) } := by
  rw [X509Generator.sign] at h
  cases h1 : env.x509_new with
  | error e =>
    simp only [h1, exbind_error] at h
    exact Except.noConfusion h
  | ok u1 =>
  simp only [h1, exbind_ok] at h
  cases h2 : env.set_version with
  | error e =>
    simp only [h2, exbind_error] at h
    exact Except.noConfusion h
  | ok u2 =>
  simp only [h2, exbind_ok] at h
  cases h3 : env.rand_bytes with
  | error e =>
    simp only [h3, exbind_error] at h
    exact Except.noConfusion h
  | ok bytes =>
  simp only [h3, exbind_ok] at h
  cases h4 : env.set_serial (X509Generator.random_serial bytes) with
  | error e =>
    simp only [h4, exbind_error] at h
    exact Except.noConfusion h
  | ok u4 =>
  simp only [h4, exbind_ok] at h
  cases h5 : env.days_from_now 0 with
  | error e =>
    simp only [h5, exbind_error] at h
    exact Except.noConfusion h
  | ok nb =>
  simp only [h5, exbind_ok] at h
  cases h6 : env.days_from_now gen.days with
  | error e =>
    simp only [h6, exbind_error] at h
    exact Except.noConfusion h
  | ok na =>
  simp only [h6, exbind_ok] at h
  cases h7 : env.set_notBefore nb with
  | error e =>
    simp only [h7, exbind_error] at h
    exact Except.noConfusion h
  | ok u7 =>
  simp only [h7, exbind_ok] at h
  cases h8 : env.set_notAfter na with
  | error e =>
    simp only [h8, exbind_error] at h
    exact Except.noConfusion h
  | ok u8 =>
  simp only [h8, exbind_ok] at h
  cases h9 : env.set_pubkey p_key with
  | error e =>
    simp only [h9, exbind_error] at h
    exact Except.noConfusion h
  | ok u9 =>
  simp only [h9, exbind_ok] at h
  cases h10 : env.get_subject_name with
  | error e =>
    simp only [h10, exbind_error] at h
    exact Except.noConfusion h
  | ok u10 =>
  simp only [h10, exbind_ok] at h
  cases h11 : addNamesLoop env gen.effectiveNames with
  | error e =>
    simp only [h11, exbind_error] at h
    exact Except.noConfusion h
  | ok u11 =>
  simp only [h11, exbind_ok] at h
  cases h12 : env.set_issuer_name with
  | error e =>
    simp only [h12, exbind_error] at h
    exact Except.noConfusion h
  | ok u12 =>
  simp only [h12, exbind_ok] at h
  cases h13 : addExtsLoop env gen.extensions.iterList with
  | error e =>
    simp only [h13, exbind_error] at h
    exact Except.noConfusion h
  | ok u13 =>
  simp only [h13, exbind_ok] at h
  cases h14 : env.x509_sign p_key gen.hash_type with
  | error e =>
    simp only [h14, exbind_error] at h
    exact Except.noConfusion h
  | ok u14 =>
  simp only [h14, exbind_ok] at h
  refine ⟨⟨⟨u1, h1⟩, ⟨u2, h2⟩, ⟨bytes, h3⟩, ?_, ⟨nb, h5⟩, ⟨na, h6⟩, ?_, ?_,
    ⟨u9, h9⟩, ⟨u10, h10⟩, (addNamesLoop_ok env _).mp ⟨u11, h11⟩, ⟨u12, h12⟩,
    (addExtsLoop_ok env _).mp ⟨u13, h13⟩, ⟨u14, h14⟩⟩,
    bytes, nb, na, ?_, ?_, ?_, ?_⟩
  · intro bytes2 hb
    rw [h3] at hb
    cases hb
    exact ⟨u4, h4⟩
  · intro t ht
    rw [h5] at ht
    cases ht
    exact ⟨u7, h7⟩
  · intro t ht
    rw [h6] at ht
    cases ht
    exact ⟨u8, h8⟩
  · first
    | exact h3
    | rfl
  · first
    | exact h5
    | rfl
  · first
    | exact h6
    | rfl
  · cases h
    rfl

theorem iterList_new : Extensions.new.iterList = [] := by
  rw [Extensions.iterList_eq]
  rfl

/-- Under the all-success environment, a fresh generator's `sign` produces
exactly `newCert`. -/
theorem sign_new_allOkEnv :
    X509Generator.new.sign 1 allOkEnv = Except.ok newCert := by
  rw [X509Generator.sign]
  have hext : X509Generator.new.extensions.iterList = [] := iterList_new
  rw [hext]
  simp only [allOkEnv, exbind_ok, addNamesLoop, addExtsLoop,
    X509Generator.effectiveNames, X509Generator.new, newCert]
  rfl

/-- C3: `sign(private_key)` produces a certificate exactly when every step
of the workflow (allocation, version, serial generation and assignment,
time construction, notBefore/notAfter, public key, subject-name handle,
every name entry, issuer, every extension encode/attach, the final signing
call) succeeds; if any performed step fails, `sign` returns an error and
no certificate. -/
theorem sign_all_or_nothing (gen : X509Generator) (p_key : PKey) (env : SignEnv) :
    (∃ c, gen.sign p_key env = Except.ok c) ↔ signStepsOk gen p_key env := by
  constructor
  · rintro ⟨c, hc⟩
    exact (sign_ok_elim gen p_key env c hc).1
  · rintro ⟨⟨u1, h1⟩, ⟨u2, h2⟩, ⟨bytes, h3⟩, h4, ⟨nb, h5⟩, ⟨na, h6⟩, h7, h8,
      ⟨u9, h9⟩, ⟨u10, h10⟩, h11, ⟨u12, h12⟩, h13, ⟨u14, h14⟩⟩
    obtain ⟨u4, hss⟩ := h4 bytes h3
    obtain ⟨u7, hnb⟩ := h7 nb h5
    obtain ⟨u8, hna⟩ := h8 na h6
    obtain ⟨u11, hnames⟩ := (addNamesLoop_ok env gen.effectiveNames).mpr h11
    obtain ⟨u13, hexts⟩ := (addExtsLoop_ok env gen.extensions.iterList).mpr h13
    refine ⟨{ version := 2
              serial := X509Generator.random_serial bytes
              notBefore := nb
              notAfter := na
              pubkey := p_key
              subject := gen.effectiveNames
              issuer := gen.effectiveNames
              extensions := gen.extensions.iterList.map (fun te => (te.1, te.2.to_string))
              signedWith := (p_key, gen.hash_type) }, ?_⟩
    rw [X509Generator.sign]
    simp only [h1, h2, h3, hss, h5, h6, hnb, hna, h9, h10, hnames, h12, hexts,
      h14, exbind_ok]

/-- C3 witness: under the all-success environment every step of a fresh
generator's workflow is performed successfully. -/
theorem sign_all_or_nothing_witness : signStepsOk X509Generator.new 1 allOkEnv :=
  (sign_all_or_nothing X509Generator.new 1 allOkEnv).mp ⟨newCert, sign_new_allOkEnv⟩

/-- C5: during a successful `sign`, the subject name consists of the single
default `("CN", "rust-openssl")` entry when the generator's name list is
empty, and otherwise of exactly the supplied entries in their given order;
the issuer name is then set equal to the subject name. -/
theorem sign_subject_issuer (gen : X509Generator) (p_key : PKey) (env : SignEnv)
    (cert : X509Cert) (h : gen.sign p_key env = Except.ok cert) :
    cert.subject = (if gen.names = [] then [("CN", "rust-openssl")] else gen.names) ∧
    cert.issuer = cert.subject := by
  obtain ⟨-, bytes, nb, na, -, -, -, hshape⟩ := sign_ok_elim gen p_key env cert h
  subst hshape
  constructor
  · simp only [X509Generator.effectiveNames]
    by_cases hnil : gen.names = []
    · simp [hnil]
    · rw [if_neg hnil, if_neg ?_]
      intro hlen
      exact hnil (List.length_eq_zero.mp hlen)
  · rfl

/-- C5 witness: the fresh generator has no name entries, so the produced
certificate carries the default common name, and its issuer equals its
subject. -/
theorem sign_subject_issuer_witness :
    newCert.subject =
      (if X509Generator.new.names = [] then [("CN", "rust-openssl")]
       else X509Generator.new.names) ∧
    newCert.issuer = newCert.subject :=
  sign_subject_issuer X509Generator.new 1 allOkEnv newCert sign_new_allOkEnv

/-- C4: `request(private_key)` first performs the full `sign` workflow and
fails with the very same error if `sign` fails; on success it converts the
certificate into a CSR carrying the certificate's subject and key, copies
the certificate's extension set into the CSR as requested extensions
(consulting the copy call exactly when that set is non-empty), and
re-signs the CSR with the same private key and the configured hash. -/
theorem request_reuses_sign (gen : X509Generator) (p_key : PKey) (env : SignEnv) :
    (∀ e, gen.sign p_key env = Except.error e →
      gen.request p_key env = Except.error e) ∧
    (∀ cert, gen.sign p_key env = Except.ok cert →
      (∀ req, gen.request p_key env = Except.ok req →
        req.subject = cert.subject ∧ req.pubkey = cert.pubkey ∧
        req.requestedExtensions = cert.extensions ∧
        req.reqSignedWith = some (p_key, gen.hash_type)) ∧
      ((∃ req, gen.request p_key env = Except.ok req) ↔
        StepOk env.to_req ∧
        (cert.extensions ≠ [] → StepOk (env.req_add_extensions cert.extensions)) ∧
        StepOk (env.req_sign p_key gen.hash_type))) := by
  constructor
  · intro e he
    rw [X509Generator.request, he]
  · intro cert hc
    rw [X509Generator.request, hc]
    by_cases hne : cert.extensions = []
    · simp only [hne, ne_eq, not_true_eq_false, if_false]
      cases ht : env.to_req with
      | error e =>
        simp only [ht, exbind_error]
        refine ⟨fun req hreq => Except.noConfusion hreq, ?_⟩
        constructor
        · rintro ⟨req, hreq⟩
          exact Except.noConfusion hreq
        · rintro ⟨⟨a, ha⟩, -, -⟩
          exact Except.noConfusion ha
      | ok ut =>
      simp only [ht, exbind_ok, exbind_ok]
      cases hs : env.req_sign p_key gen.hash_type with
      | error e =>
        simp only [hs, exbind_error]
        refine ⟨fun req hreq => Except.noConfusion hreq, ?_⟩
        constructor
        · rintro ⟨req, hreq⟩
          exact Except.noConfusion hreq
        · rintro ⟨-, -, ⟨a, ha⟩⟩
          exact Except.noConfusion ha
      | ok us =>
        simp only [hs, exbind_ok]
        refine ⟨?_, ?_⟩
        · intro req hreq
          cases hreq
          refine ⟨rfl, rfl, ?_, rfl⟩
          simp [hne]
        · constructor
          · intro hex
            refine ⟨⟨ut, ?_⟩, ?_, ⟨us, ?_⟩⟩
            · first
              | exact ht
              | rfl
            · intro hx
              first
              | exact absurd hne hx
              | exact hx.elim
            · first
              | exact hs
              | rfl
          · intro hsteps
            exact ⟨_, rfl⟩
    · simp only [hne, ne_eq, not_false_eq_true, if_true]
      cases ht : env.to_req with
      | error e =>
        simp only [ht, exbind_error]
        refine ⟨fun req hreq => Except.noConfusion hreq, ?_⟩
        constructor
        · rintro ⟨req, hreq⟩
          exact Except.noConfusion hreq
        · rintro ⟨⟨a, ha⟩, -, -⟩
          exact Except.noConfusion ha
      | ok ut =>
      simp only [ht, exbind_ok]
      cases hadd : env.req_add_extensions cert.extensions with
      | error e =>
        simp only [hadd, exbind_error]
        refine ⟨fun req hreq => Except.noConfusion hreq, ?_⟩
        constructor
        · rintro ⟨req, hreq⟩
          exact Except.noConfusion hreq
        · rintro ⟨-, hax, -⟩
          rcases hax (by first | exact hne | trivial) with ⟨a, ha⟩
          exact Except.noConfusion ha
      | ok ua =>
      simp only [hadd, exbind_ok]
      cases hs : env.req_sign p_key gen.hash_type with
      | error e =>
        simp only [hs, exbind_error]
        refine ⟨fun req hreq => Except.noConfusion hreq, ?_⟩
        constructor
        · rintro ⟨req, hreq⟩
          exact Except.noConfusion hreq
        · rintro ⟨-, -, ⟨a, ha⟩⟩
          exact Except.noConfusion ha
      | ok us =>
        simp only [hs, exbind_ok]
        refine ⟨?_, ?_⟩
        · intro req hreq
          cases hreq
          refine ⟨rfl, rfl, ?_, rfl⟩
          simp [hne]
        · constructor
          · intro hex
            refine ⟨⟨ut, ?_⟩, ?_, ⟨us, ?_⟩⟩
            · first
              | exact ht
              | rfl
            · intro hx
              refine ⟨ua, ?_⟩
              first
              | exact hadd
              | rfl
            · first
              | exact hs
              | rfl
          · intro hsteps
            exact ⟨_, rfl⟩

/-- C4 witness: under the all-success environment a fresh generator's
`request` call succeeds. -/
theorem request_reuses_sign_witness :
    ∃ req, X509Generator.new.request 1 allOkEnv = Except.ok req :=
  ((request_reuses_sign X509Generator.new 1 allOkEnv).2 newCert sign_new_allOkEnv).2.mpr
    ⟨⟨(), rfl⟩, fun hx => absurd rfl hx, ⟨(), rfl⟩⟩

theorem utf8EncodeChar_ascii (n : Nat) (h : n < 0x80) : utf8EncodeChar n = [n] := by
  rw [utf8EncodeChar, if_pos h]

theorem utf8EncodeChar_two (n : Nat) (h1 : 0x80 ≤ n) (h2 : n < 0x800) :
    utf8EncodeChar n = [0xC0 + n / 0x40, 0x80 + n % 0x40] := by
  rw [utf8EncodeChar, if_neg (by omega), if_pos h2]

theorem utf8EncodeChar_three (n : Nat) (h1 : 0x800 ≤ n) (h2 : n < 0x10000) :
    utf8EncodeChar n =
      [0xE0 + n / 0x1000, 0x80 + n / 0x40 % 0x40, 0x80 + n % 0x40] := by
  rw [utf8EncodeChar, if_neg (by omega), if_neg (by omega), if_pos h2]

theorem utf8EncodeChar_four (n : Nat) (h1 : 0x10000 ≤ n) :
    utf8EncodeChar n =
      [0xF0 + n / 0x40000, 0x80 + n / 0x1000 % 0x40, 0x80 + n / 0x40 % 0x40,
        0x80 + n % 0x40] := by
  rw [utf8EncodeChar, if_neg (by omega), if_neg (by omega), if_neg (by omega)]

theorem utf8Encode_cons (c : Nat) (cs : List Nat) :
    utf8Encode (c :: cs) = utf8EncodeChar c ++ utf8Encode cs := by
  simp [utf8Encode]

theorem utf8Decode_nil : utf8Decode [] = some [] := rfl

/-- One-step unfolding of `utf8Decode` on a non-empty stream. -/
theorem utf8Decode_cons (b0 : Nat) (rest : List Nat) :
    utf8Decode (b0 :: rest) =
      (if b0 < 0x80 then
        (utf8Decode rest).map (fun cs => b0 :: cs)
      else if b0 < 0xC2 then none
      else if b0 < 0xE0 then
        match rest with
        | b1 :: rest2 =>
          if 0x80 ≤ b1 ∧ b1 < 0xC0 then
            (utf8Decode rest2).map (fun cs => ((b0 - 0xC0) * 0x40 + (b1 - 0x80)) :: cs)
          else none
        | [] => none
      else if b0 < 0xF0 then
        match rest with
        | b1 :: b2 :: rest2 =>
          if (if b0 = 0xE0 then 0xA0 else 0x80) ≤ b1 ∧
              b1 < (if b0 = 0xED then 0xA0 else 0xC0) ∧
              0x80 ≤ b2 ∧ b2 < 0xC0 then
            (utf8Decode rest2).map
              (fun cs => ((b0 - 0xE0) * 0x1000 + (b1 - 0x80) * 0x40 + (b2 - 0x80)) :: cs)
          else none
        | _ => none
      else if b0 < 0xF5 then
        match rest with
        | b1 :: b2 :: b3 :: rest2 =>
          if (if b0 = 0xF0 then 0x90 else 0x80) ≤ b1 ∧
              b1 < (if b0 = 0xF4 then 0x90 else 0xC0) ∧
              0x80 ≤ b2 ∧ b2 < 0xC0 ∧ 0x80 ≤ b3 ∧ b3 < 0xC0 then
            (utf8Decode rest2).map
              (fun cs => ((b0 - 0xF0) * 0x40000 + (b1 - 0x80) * 0x1000 +
                (b2 - 0x80) * 0x40 + (b3 - 0x80)) :: cs)
          else none
        | _ => none
      else none) := by
  cases rest with
  | nil => rfl
  | cons b1 rest1 =>
    cases rest1 with
    | nil => rfl
    | cons b2 rest2 =>
      cases rest2 with
      | nil => rfl
      | cons b3 rest3 => rfl

/-- Decoding a stream that starts with the encoding of a scalar value peels
off exactly that scalar. -/
theorem utf8Decode_encodeChar (n : Nat) (hn : ScalarValue n) (bs : List Nat) :
    utf8Decode (utf8EncodeChar n ++ bs) = (utf8Decode bs).map (fun cs => n :: cs) := by
  have hn2 : n < 0xD800 ∨ (0xE000 ≤ n ∧ n < 0x110000) := hn
  rcases Nat.lt_or_ge n 0x80 with h1 | h1
  · rw [utf8EncodeChar_ascii n h1]
    simp only [List.cons_append, List.nil_append]
    rw [utf8Decode_cons, if_pos h1]
  · rcases Nat.lt_or_ge n 0x800 with h2 | h2
    · rw [utf8EncodeChar_two n h1 h2]
      simp only [List.cons_append, List.nil_append]
      rw [utf8Decode_cons, if_neg (by omega), if_neg (by omega), if_pos (by omega)]
      dsimp only
      rw [if_pos (by omega)]
      have harith : (0xC0 + n / 0x40 - 0xC0) * 0x40 + (0x80 + n % 0x40 - 0x80) = n := by
        omega
      rw [harith]
    · rcases Nat.lt_or_ge n 0x10000 with h3 | h3
      · rw [utf8EncodeChar_three n h2 h3]
        simp only [List.cons_append, List.nil_append]
        rw [utf8Decode_cons, if_neg (by omega), if_neg (by omega), if_neg (by omega),
          if_pos (by omega)]
        dsimp only
        have harith : (0xE0 + n / 0x1000 - 0xE0) * 0x1000 +
            (0x80 + n / 0x40 % 0x40 - 0x80) * 0x40 + (0x80 + n % 0x40 - 0x80) = n := by
          omega
        rcases Nat.lt_or_ge n 0x1000 with hA | hA
        · rw [if_pos (by omega : 0xE0 + n / 0x1000 = 0xE0),
            if_neg (by omega : ¬ 0xE0 + n / 0x1000 = 0xED),
            if_pos (by omega), harith]
        · by_cases hB : 0xD000 ≤ n ∧ n < 0xE000
          · rw [if_neg (by omega : ¬ 0xE0 + n / 0x1000 = 0xE0),
              if_pos (by omega : 0xE0 + n / 0x1000 = 0xED),
              if_pos (by omega), harith]
          · rw [if_neg (by omega : ¬ 0xE0 + n / 0x1000 = 0xE0),
              if_neg (by omega : ¬ 0xE0 + n / 0x1000 = 0xED),
              if_pos (by omega), harith]
      · rw [utf8EncodeChar_four n h3]
        simp only [List.cons_append, List.nil_append]
        rw [utf8Decode_cons, if_neg (by omega), if_neg (by omega), if_neg (by omega),
          if_neg (by omega), if_pos (by omega)]
        dsimp only
        have harith : (0xF0 + n / 0x40000 - 0xF0) * 0x40000 +
            (0x80 + n / 0x1000 % 0x40 - 0x80) * 0x1000 +
            (0x80 + n / 0x40 % 0x40 - 0x80) * 0x40 + (0x80 + n % 0x40 - 0x80) = n := by
          omega
        rcases Nat.lt_or_ge n 0x40000 with hA | hA
        · rw [if_pos (by omega : 0xF0 + n / 0x40000 = 0xF0),
            if_neg (by omega : ¬ 0xF0 + n / 0x40000 = 0xF4),
            if_pos (by omega), harith]
        · rcases Nat.lt_or_ge n 0x100000 with hB | hB
          · rw [if_neg (by omega : ¬ 0xF0 + n / 0x40000 = 0xF0),
              if_neg (by omega : ¬ 0xF0 + n / 0x40000 = 0xF4),
              if_pos (by omega), harith]
          · rw [if_neg (by omega : ¬ 0xF0 + n / 0x40000 = 0xF0),
              if_pos (by omega : 0xF0 + n / 0x40000 = 0xF4),
              if_pos (by omega), harith]

/-- Round trip: decoding the encoding of any sequence of scalar values
returns exactly that sequence. -/
theorem utf8Decode_utf8Encode (cs : List Nat) (h : ∀ c ∈ cs, ScalarValue c) :
    utf8Decode (utf8Encode cs) = some cs := by
  induction cs with
  | nil => rfl
  | cons hd tl ih =>
    rw [utf8Encode_cons, utf8Decode_encodeChar hd (h hd (by simp)),
      ih (fun c hc => h c (by simp [hc]))]
    rfl

set_option maxRecDepth 8192 in
/-- Soundness of the decoder: a successful decode yields scalar values
whose standard encoding is exactly the input byte stream. -/
theorem utf8Decode_sound (bs : List Nat) :
    ∀ cs, utf8Decode bs = some cs →
      (∀ c ∈ cs, ScalarValue c) ∧ utf8Encode cs = bs := by
  induction bs using utf8Decode.induct with
  | case1 =>
    intro cs h
    rw [utf8Decode_nil] at h
    cases h
    exact ⟨by simp, rfl⟩
  | case2 b0 rest hb0 ih =>
    intro cs h
    rw [utf8Decode_cons, if_pos hb0, Option.map_eq_some'] at h
    obtain ⟨cs2, hdec, hcs⟩ := h
    obtain ⟨hsc, henc⟩ := ih cs2 hdec
    subst hcs
    refine ⟨?_, ?_⟩
    · intro c hc
      rcases List.mem_cons.mp hc with rfl | hm
      · exact Or.inl (by omega)
      · exact hsc c hm
    · rw [utf8Encode_cons, henc, utf8EncodeChar_ascii b0 hb0]
      rfl
  | case3 b0 rest h1 h2 =>
    intro cs h
    rw [utf8Decode_cons, if_neg h1, if_pos h2] at h
    exact Option.noConfusion h
  | case4 b0 h1 h2 h3 b1 rest2 hcond ih =>
    intro cs h
    rw [utf8Decode_cons, if_neg h1, if_neg h2, if_pos h3] at h
    dsimp only at h
    rw [if_pos hcond, Option.map_eq_some'] at h
    obtain ⟨cs2, hdec, hcs⟩ := h
    obtain ⟨hsc, henc⟩ := ih cs2 hdec
    subst hcs
    obtain ⟨hb1a, hb1b⟩ := hcond
    refine ⟨?_, ?_⟩
    · intro c hc
      rcases List.mem_cons.mp hc with rfl | hm
      · exact Or.inl (by omega)
      · exact hsc c hm
    · rw [utf8Encode_cons, henc, utf8EncodeChar_two _ (by omega) (by omega)]
      have e1 : 0xC0 + ((b0 - 0xC0) * 0x40 + (b1 - 0x80)) / 0x40 = b0 := by omega
      have e2 : 0x80 + ((b0 - 0xC0) * 0x40 + (b1 - 0x80)) % 0x40 = b1 := by omega
      rw [e1, e2]
      rfl
  | case5 b0 h1 h2 h3 b1 rest2 hcond =>
    intro cs h
    rw [utf8Decode_cons, if_neg h1, if_neg h2, if_pos h3] at h
    dsimp only at h
    rw [if_neg hcond] at h
    exact Option.noConfusion h
  | case6 b0 h1 h2 h3 =>
    intro cs h
    rw [utf8Decode_cons, if_neg h1, if_neg h2, if_pos h3] at h
    exact Option.noConfusion h
  | case7 b0 h1 h2 h3 h4 b1 b2 rest2 hcond ih =>
    intro cs h
    rw [utf8Decode_cons, if_neg h1, if_neg h2, if_neg h3, if_pos h4] at h
    dsimp only at h
    rw [if_pos hcond, Option.map_eq_some'] at h
    obtain ⟨cs2, hdec, hcs⟩ := h
    obtain ⟨hsc, henc⟩ := ih cs2 hdec
    subst hcs
    have hb1a := hcond.1
    have hb1b := hcond.2.1
    have hb2 : 0x80 ≤ b2 ∧ b2 < 0xC0 := ⟨hcond.2.2.1, hcond.2.2.2⟩
    have hb1 : 0x80 ≤ b1 ∧ b1 < 0xC0 ∧ (b0 = 0xE0 → 0xA0 ≤ b1) ∧
        (b0 = 0xED → b1 < 0xA0) := by
      by_cases hE0 : b0 = 0xE0
      · rw [if_pos hE0] at hb1a
        rw [if_neg (by omega)] at hb1b
        exact ⟨by omega, hb1b, fun _ => hb1a, fun hED => by omega⟩
      · rw [if_neg hE0] at hb1a
        by_cases hED : b0 = 0xED
        · rw [if_pos hED] at hb1b
          exact ⟨hb1a, by omega, fun hE => absurd hE hE0, fun _ => hb1b⟩
        · rw [if_neg hED] at hb1b
          exact ⟨hb1a, hb1b, fun hE => absurd hE hE0, fun hE => absurd hE hED⟩
    refine ⟨?_, ?_⟩
    · intro c hc
      rcases List.mem_cons.mp hc with rfl | hm
      · have hsv : (b0 - 0xE0) * 0x1000 + (b1 - 0x80) * 0x40 + (b2 - 0x80) < 0xD800 ∨
            (0xE000 ≤ (b0 - 0xE0) * 0x1000 + (b1 - 0x80) * 0x40 + (b2 - 0x80) ∧
              (b0 - 0xE0) * 0x1000 + (b1 - 0x80) * 0x40 + (b2 - 0x80) < 0x110000) := by
          omega
        exact hsv
      · exact hsc c hm
    · rw [utf8Encode_cons, henc, utf8EncodeChar_three _ (by omega) (by omega)]
      have e1 : 0xE0 +
          ((b0 - 0xE0) * 0x1000 + (b1 - 0x80) * 0x40 + (b2 - 0x80)) / 0x1000 = b0 := by
        omega
      have e2 : 0x80 +
          ((b0 - 0xE0) * 0x1000 + (b1 - 0x80) * 0x40 + (b2 - 0x80)) / 0x40 % 0x40 = b1 := by
        omega
      have e3 : 0x80 +
          ((b0 - 0xE0) * 0x1000 + (b1 - 0x80) * 0x40 + (b2 - 0x80)) % 0x40 = b2 := by
        omega
      rw [e1, e2, e3]
      rfl
  | case8 b0 h1 h2 h3 h4 b1 b2 rest2 hcond =>
    intro cs h
    rw [utf8Decode_cons, if_neg h1, if_neg h2, if_neg h3, if_pos h4] at h
    dsimp only at h
    rw [if_neg hcond] at h
    exact Option.noConfusion h
  | case9 b0 rest h1 h2 h3 h4 hshape =>
    intro cs h
    rw [utf8Decode_cons, if_neg h1, if_neg h2, if_neg h3, if_pos h4] at h
    rcases rest with - | ⟨b1, rest1⟩
    · exact Option.noConfusion h
    · rcases rest1 with - | ⟨b2, rest2⟩
      · exact Option.noConfusion h
      · exact (hshape b1 b2 rest2 rfl).elim
  | case10 b0 h1 h2 h3 h4 h5 b1 b2 b3 rest2 hcond ih =>
    intro cs h
    rw [utf8Decode_cons, if_neg h1, if_neg h2, if_neg h3, if_neg h4, if_pos h5] at h
    dsimp only at h
    rw [if_pos hcond, Option.map_eq_some'] at h
    obtain ⟨cs2, hdec, hcs⟩ := h
    obtain ⟨hsc, henc⟩ := ih cs2 hdec
    subst hcs
    have hb1a := hcond.1
    have hb1b := hcond.2.1
    have hb2 : 0x80 ≤ b2 ∧ b2 < 0xC0 := ⟨hcond.2.2.1, hcond.2.2.2.1⟩
    have hb3 : 0x80 ≤ b3 ∧ b3 < 0xC0 := ⟨hcond.2.2.2.2.1, hcond.2.2.2.2.2⟩
    have hb1 : 0x80 ≤ b1 ∧ b1 < 0xC0 ∧ (b0 = 0xF0 → 0x90 ≤ b1) ∧
        (b0 = 0xF4 → b1 < 0x90) := by
      by_cases hF0 : b0 = 0xF0
      · rw [if_pos hF0] at hb1a
        rw [if_neg (by omega)] at hb1b
        exact ⟨by omega, hb1b, fun _ => hb1a, fun hF4 => by omega⟩
      · rw [if_neg hF0] at hb1a
        by_cases hF4 : b0 = 0xF4
        · rw [if_pos hF4] at hb1b
          exact ⟨hb1a, by omega, fun hF => absurd hF hF0, fun _ => hb1b⟩
        · rw [if_neg hF4] at hb1b
          exact ⟨hb1a, hb1b, fun hF => absurd hF hF0, fun hF => absurd hF hF4⟩
    refine ⟨?_, ?_⟩
    · intro c hc
      rcases List.mem_cons.mp hc with rfl | hm
      · have hsv : (b0 - 0xF0) * 0x40000 + (b1 - 0x80) * 0x1000 +
              (b2 - 0x80) * 0x40 + (b3 - 0x80) < 0xD800 ∨
            (0xE000 ≤ (b0 - 0xF0) * 0x40000 + (b1 - 0x80) * 0x1000 +
              (b2 - 0x80) * 0x40 + (b3 - 0x80) ∧
              (b0 - 0xF0) * 0x40000 + (b1 - 0x80) * 0x1000 +
                (b2 - 0x80) * 0x40 + (b3 - 0x80) < 0x110000) := by
          omega
        exact hsv
      · exact hsc c hm
    · rw [utf8Encode_cons, henc, utf8EncodeChar_four _ (by omega)]
      have e1 : 0xF0 + ((b0 - 0xF0) * 0x40000 + (b1 - 0x80) * 0x1000 +
          (b2 - 0x80) * 0x40 + (b3 - 0x80)) / 0x40000 = b0 := by
        omega
      have e2 : 0x80 + ((b0 - 0xF0) * 0x40000 + (b1 - 0x80) * 0x1000 +
          (b2 - 0x80) * 0x40 + (b3 - 0x80)) / 0x1000 % 0x40 = b1 := by
        omega
      have e3 : 0x80 + ((b0 - 0xF0) * 0x40000 + (b1 - 0x80) * 0x1000 +
          (b2 - 0x80) * 0x40 + (b3 - 0x80)) / 0x40 % 0x40 = b2 := by
        omega
      have e4 : 0x80 + ((b0 - 0xF0) * 0x40000 + (b1 - 0x80) * 0x1000 +
          (b2 - 0x80) * 0x40 + (b3 - 0x80)) % 0x40 = b3 := by
        omega
      rw [e1, e2, e3, e4]
      rfl
  | case11 b0 h1 h2 h3 h4 h5 b1 b2 b3 rest2 hcond =>
    intro cs h
    rw [utf8Decode_cons, if_neg h1, if_neg h2, if_neg h3, if_neg h4, if_pos h5] at h
    dsimp only at h
    rw [if_neg hcond] at h
    exact Option.noConfusion h
  | case12 b0 rest h1 h2 h3 h4 h5 hshape =>
    intro cs h
    rw [utf8Decode_cons, if_neg h1, if_neg h2, if_neg h3, if_neg h4, if_pos h5] at h
    rcases rest with - | ⟨b1, rest1⟩
    · exact Option.noConfusion h
    · rcases rest1 with - | ⟨b2, rest2⟩
      · exact Option.noConfusion h
      · rcases rest2 with - | ⟨b3, rest3⟩
        · exact Option.noConfusion h
        · exact (hshape b1 b2 b3 rest3 rfl).elim
  | case13 b0 rest h1 h2 h3 h4 h5 =>
    intro cs h
    rw [utf8Decode_cons, if_neg h1, if_neg h2, if_neg h3, if_neg h4, if_neg h5] at h
    exact Option.noConfusion h

/-- C8: `dnsname()` returns `None` whenever the entry's tag is not
`GEN_DNS`; on a `GEN_DNS` entry it interprets the payload bytes as text:
it succeeds exactly when the bytes are valid UTF-8 (the encoding of some
sequence of Unicode scalar values), returning that text, and fails soft to
`None` on invalid text rather than panicking or erroring; `ipaddress()`
returns `None` whenever the tag is not `GEN_IPADD`, and on a `GEN_IPADD`
entry returns the raw address bytes unmodified. -/
theorem dnsname_ipaddress_spec (n : GeneralName) :
    (n.type_ ≠ GEN_DNS → n.dnsname = none) ∧
    (n.type_ = GEN_DNS →
      ((∃ cs, n.dnsname = some cs) ↔
        ∃ cs, (∀ c ∈ cs, ScalarValue c) ∧ utf8Encode cs = n.d) ∧
      (∀ cs, n.dnsname = some cs →
        (∀ c ∈ cs, ScalarValue c) ∧ utf8Encode cs = n.d)) ∧
    (n.type_ ≠ GEN_IPADD → n.ipaddress = none) ∧
    (n.type_ = GEN_IPADD → n.ipaddress = some n.d) := by
  refine ⟨?_, ?_, ?_, ?_⟩
  · intro h
    rw [GeneralName.dnsname, if_pos h]
  · intro h
    have hd : n.dnsname = utf8Decode n.d := by
      rw [GeneralName.dnsname, if_neg (by simp [h])]
    constructor
    · constructor
      · rintro ⟨cs, hcs⟩
        rw [hd] at hcs
        obtain ⟨hsc, henc⟩ := utf8Decode_sound n.d cs hcs
        exact ⟨cs, hsc, henc⟩
      · rintro ⟨cs, hsc, henc⟩
        refine ⟨cs, ?_⟩
        rw [hd, ← henc]
        exact utf8Decode_utf8Encode cs hsc
    · intro cs hcs
      rw [hd] at hcs
      exact utf8Decode_sound n.d cs hcs
  · intro h
    rw [GeneralName.ipaddress, if_pos h]
  · intro h
    rw [GeneralName.ipaddress, if_neg (by simp [h])]

/-- C8 witness: the sample DNS entry (tag `GEN_DNS`, the ASCII bytes of
`example.com`) decodes successfully, so its payload is the encoding of a
sequence of scalar values; the sample IP entry returns its four raw bytes
unmodified. -/
theorem dnsname_ipaddress_spec_witness :
    (∃ cs, (∀ c ∈ cs, ScalarValue c) ∧ utf8Encode cs = gnDns.d) ∧
    GeneralName.ipaddress gnIp = some gnIp.d :=
  ⟨(((dnsname_ipaddress_spec gnDns).2.1 (by decide)).1).mp ⟨gnDns.d, by decide⟩,
    (dnsname_ipaddress_spec gnIp).2.2.2 (by decide)⟩

end RustOpenssl
